import Mathlib

/-!
# Verification of the IONOS-simple-chatbot retrieval pipeline

Shallow embedding of the evidence pipeline of `src/backend`:
the sufficiency gate (`agents/nodes/response_sufficiency_node.py`),
the evidence ranker (`agents/nodes/evidence_ranker_node.py` and
`utils/ranking.py`), the search planner
(`agents/nodes/search_planner_node.py`), the context merger
(`agents/nodes/context_merge_node.py` and `utils/citations.py`),
the web reader (`agents/Collectors/web_reader.py`) and the extended
LangGraph workflow wiring (`agents/react_agent.py`).

Python strings are modelled as `List Char` (`Str`); Python `None`-able
values as `Option`; dictionaries carrying a fixed set of keys as
structures.  Scores that Python computes as floats (a count divided by
a fixed per-query count, always in `[0,1]` with a common denominator
inside a single call) are modelled as exact rationals: for one call the
denominator `|query tokens|` is shared by every compared score, so the
float comparisons performed by the code coincide with the rational
ones.  Network and HTML extraction effects are passed in as an explicit
`fetch` function argument.
-/

/-- Python `str` is modelled as a list of characters. -/
abbrev Str := List Char

/-- Coerce a Lean string literal into the `Str` model. -/
def strL (s : String) : Str := s.toList

/-- ASCII model of the regex class `\w` (letters, digits, underscore). -/
def isWordChar (c : Char) : Bool := c.isAlphanum || c = '_'

/-- Model of the regex class `\s` for the ASCII range (Python
whitespace: space, tab, newline, carriage return, vertical tab, form
feed). -/
def isSpaceChar (c : Char) : Bool :=
  c = ' ' || c = '\t' || c = '\n' || c = '\r' || c = '\x0b' || c = '\x0c'

/-- Python `str.lower` (ASCII range). -/
def pyLower (s : Str) : Str := s.map Char.toLower

/-- Python `str.strip`: drop leading and trailing whitespace. -/
def pstrip (s : Str) : Str :=
  ((s.dropWhile isSpaceChar).reverse.dropWhile isSpaceChar).reverse

/-- Python `needle in hay` substring test. -/
def subStr (needle hay : Str) : Bool :=
  (List.range (hay.length + 1)).any (fun i => needle.isPrefixOf (hay.drop i))

/-- Number of positions of `hay` at which `needle` occurs. -/
def countOccSub (needle hay : Str) : Nat :=
  ((List.range (hay.length + 1)).filter
    (fun i => needle.isPrefixOf (hay.drop i))).length

/-- The shared "latest user message" extraction used by the nodes:
walk `messages` from the end, take the first whose stripped content is
non-empty, and return that stripped content
(`for msg in reversed(...): if content.strip(): ... break`). -/
def lastStripped (msgs : List Str) : Option Str :=
  (msgs.reverse.find? (fun s => !(pstrip s).isEmpty)).map pstrip

/-! ## SufficiencyGate — `response_sufficiency_node.py` -/

/-- A local passage as read by the sufficiency gate: `p.get("text")`
is a string (`some`) or absent/`None`/non-string (`none`). -/
structure LPassage where
  text : Option Str
  url : Option Str
deriving DecidableEq, Repr

/-- Default of `Config.MIN_LOCAL_HITS` (`int(os.getenv("MIN_LOCAL_HITS", "3"))`). -/
def MIN_LOCAL_HITS : Nat := 3

/-- The fixed trigger keyword list `web_triggers`. -/
def web_triggers : List Str :=
  [strL "article", strL "review", strL "news", strL "latest",
   strL "today", strL "update", strL "price", strL "law"]

/-- The lowered, stripped latest user message text (`user_text`,
defaulting to the empty string). -/
def gateUserText (msgs : List Str) : Str :=
  match lastStripped msgs with
  | some s => pyLower s
  | none => []

/-- The check `any(k in user_text for k in web_triggers)`. -/
def triggerHit (msgs : List Str) : Bool :=
  web_triggers.any (fun k => subStr k (gateUserText msgs))

/-- The count `len([p for p in local_passages if isinstance(p.get("text"), str)
and len(p.get("text")) >= 200])`. -/
def localHits (ps : List LPassage) : Nat :=
  (ps.filter (fun p =>
    match p.text with
    | some t => decide (200 ≤ t.length)
    | none => false)).length

/-- Model of `ResponseSufficiencyNode.execute`: returns the decision string and
the optional `deficits["reason"]`. -/
def sufficiencyExecute (ps : List LPassage) (msgs : List Str) :
    Str × Option Str :=
  let trigger_hit := triggerHit msgs
  let has_coverage : Bool := decide (max 1 MIN_LOCAL_HITS ≤ localHits ps)
  if trigger_hit && !has_coverage then
    (strL "insufficient", some (strL "trigger_and_low_coverage"))
  else if has_coverage && !trigger_hit then
    (strL "sufficient", none)
  else
    (strL "insufficient", some (strL "borderline"))

/-- The spec's three-row decision table, written from the spec's words:
trigger present and `hits < min_local_hits` gives insufficient with
reason `trigger_and_low_coverage`; `hits ≥ min_local_hits` and no
trigger gives sufficient with no deficit; otherwise insufficient with
reason `borderline`. -/
def sufficiencySpecTable (trig : Bool) (hits : Nat) : Str × Option Str :=
  if trig = true ∧ hits < MIN_LOCAL_HITS then
    (strL "insufficient", some (strL "trigger_and_low_coverage"))
  else if MIN_LOCAL_HITS ≤ hits ∧ trig = false then
    (strL "sufficient", none)
  else
    (strL "insufficient", some (strL "borderline"))

/-- C1: the gate follows the spec's decision table at the default
threshold `min_local_hits = 3`. -/
theorem sufficiency_follows_spec_table (ps : List LPassage) (msgs : List Str) :
    sufficiencyExecute ps msgs =
      sufficiencySpecTable (triggerHit msgs) (localHits ps) := by
  unfold sufficiencyExecute sufficiencySpecTable MIN_LOCAL_HITS
  cases h : triggerHit msgs
  · rcases Nat.lt_or_ge (localHits ps) 3 with hlt | hge
    · simp [hlt, Nat.not_le.mpr hlt]
    · simp [hge, Nat.not_lt.mpr hge]
  · rcases Nat.lt_or_ge (localHits ps) 3 with hlt | hge
    · simp [hlt, Nat.not_le.mpr hlt]
    · simp [hge, Nat.not_lt.mpr hge]

/-! ## EvidenceRanker — `evidence_ranker_node.py` and `utils/ranking.py` -/

/-- A local passage as read by the ranker (`p.get("text", "")` etc.;
`none` models an absent or `None` value, defaulted to `""` on read). -/
structure RLocal where
  text : Option Str
  url : Option Str
  title : Option Str
deriving DecidableEq, Repr

/-- A web passage as read by the ranker (`p.get("passage", "")`). -/
structure RWeb where
  passage : Option Str
  url : Option Str
  title : Option Str
deriving DecidableEq, Repr

/-- The unified evidence schema `{text, url, title, source}`. -/
structure RItem where
  text : Str
  url : Option Str
  title : Option Str
  source : Str
deriving DecidableEq, Repr

/-- Normalisation of local and web passages to the common schema:
local items first (in order), then web items (in order). -/
def unifyPassages (localPs : List RLocal) (webPs : List RWeb) : List RItem :=
  localPs.map (fun p => ⟨p.text.getD [], p.url, p.title, strL "local"⟩) ++
    webPs.map (fun p => ⟨p.passage.getD [], p.url, p.title, strL "web"⟩)

/-- Tokeniser for `re.findall(pat, s)` where `pat` matches maximal
runs of characters satisfying `tok`; `cur` accumulates the current run
in reverse. -/
def findTokensAux (tok : Char → Bool) (cur : Str) : Str → List Str
  | [] => if cur.isEmpty then [] else [cur.reverse]
  | c :: rest =>
    if tok c then findTokensAux tok (c :: cur) rest
    else if cur.isEmpty then findTokensAux tok [] rest
    else cur.reverse :: findTokensAux tok [] rest

/-- Model of `re.findall` returning maximal `tok`-runs. -/
def findTokens (tok : Char → Bool) (s : Str) : List Str :=
  findTokensAux tok [] s

/-- The ranker's token class `[\w-]+`. -/
def isRankTokChar (c : Char) : Bool := isWordChar c || c = '-'

/-- Model of `keyword_score(text, q)`: the token-overlap ratio
`|q_tokens ∩ t_tokens| / |q_tokens|` as an exact rational (see the
module comment on the float model). -/
def keyword_score (text q : Str) : ℚ :=
  if text.isEmpty || q.isEmpty then 0
  else
    let qT := (findTokens isRankTokChar (pyLower q)).dedup
    let tT := (findTokens isRankTokChar (pyLower text)).dedup
    if qT.isEmpty then 0
    else ((qT.filter (fun t => t ∈ tT)).length : ℚ) / (qT.length : ℚ)

/-- The dedup key `(item.get("url"), (item.get("text") or "")[:80])`. -/
def rkey (it : RItem) : Option Str × Str := (it.url, it.text.take 80)

/-- The ranker's dedup loop over `(item, score)` pairs with its `seen`
set of keys. -/
def dedupAux (seen : List (Option Str × Str)) :
    List (RItem × ℚ) → List (RItem × ℚ)
  | [] => []
  | p :: rest =>
    if rkey p.1 ∈ seen then dedupAux seen rest
    else p :: dedupAux (rkey p.1 :: seen) rest

/-- Comparison used by Python's `sorted(key=lambda x: x[1],
reverse=True)`: `a` may precede `b` iff `b`'s score is at most `a`'s. -/
def scoreLE (a b : RItem × ℚ) : Bool := decide (b.2 ≤ a.2)

/-- Model of `mmr_diversify` from `utils/ranking.py`: despite its name, it is a
stable sort by score descending followed by `take top_k` (the
`lambda_weight` parameter of the source is unused there). Python's
`sorted` is a stable sort, as is `List.mergeSort`. -/
def mmr_diversify (scored_passages : List (RItem × ℚ)) (top_k : Nat) :
    List RItem :=
  ((scored_passages.mergeSort scoreLE).take top_k).map (fun p => p.1)

/-- The score/dedup/rank core of `EvidenceRankerNode.execute`, applied
to an already-unified item list. -/
def rankCore (q : Str) (items : List RItem) : List RItem :=
  mmr_diversify (dedupAux [] (items.map (fun it => (it, keyword_score it.text q)))) 10

/-- The ranker's query extraction (`query or ""` downstream). -/
def rankQuery (msgs : List Str) : Str := (lastStripped msgs).getD []

/-- Model of `EvidenceRankerNode.execute`: unify, score, dedup, rank. -/
def rankerExecute (localPs : List RLocal) (webPs : List RWeb)
    (msgs : List Str) : List RItem :=
  rankCore (rankQuery msgs) (unifyPassages localPs webPs)

/-- Deduplication as the spec words it: keep the first occurrence of
each composite key, drop every later item with the same key. -/
def keepFirstByKey : List (RItem × ℚ) → List (RItem × ℚ)
  | [] => []
  | p :: rest => p :: keepFirstByKey (rest.filter (fun y => rkey y.1 ≠ rkey p.1))
termination_by l => l.length
decreasing_by
  exact Nat.lt_succ_of_le (List.length_filter_le _ _)

/-- The spec's ranking order on index-tagged scored items: strictly
higher score first, ties broken by the original position. -/
def byScoreThenInput (a b : Nat × (RItem × ℚ)) : Bool :=
  if scoreLE a.2 b.2 then
    if scoreLE b.2 a.2 then a.1 ≤ b.1 else true
  else false

/-- The scored unified list of one ranker call. -/
def scoredOf (localPs : List RLocal) (webPs : List RWeb)
    (msgs : List Str) : List (RItem × ℚ) :=
  (unifyPassages localPs webPs).map
    (fun it => (it, keyword_score it.text (rankQuery msgs)))

theorem dedupAux_eq_keepFirst (l : List (RItem × ℚ)) :
    ∀ seen, dedupAux seen l =
      keepFirstByKey (l.filter (fun y => rkey y.1 ∉ seen)) := by
  induction l with
  | nil => intro seen; simp [dedupAux, keepFirstByKey]
  | cons p rest ih =>
    intro seen
    by_cases h : rkey p.1 ∈ seen
    · simp [dedupAux, h, ih]
    · have hfilter :
          rest.filter (fun y => rkey y.1 ∉ (rkey p.1 :: seen)) =
            (rest.filter (fun y => rkey y.1 ∉ seen)).filter
              (fun y => rkey y.1 ≠ rkey p.1) := by
        rw [List.filter_filter]
        apply List.filter_congr
        intro a _
        by_cases h1 : rkey a.1 = rkey p.1 <;> by_cases h2 : rkey a.1 ∈ seen <;>
          simp [h1, h2]
      simp only [dedupAux, h, if_neg, ih]
      rw [hfilter]
      simp [keepFirstByKey, h]

theorem keepFirstByKey_sublist (l : List (RItem × ℚ)) :
    List.Sublist (keepFirstByKey l) l := by
  induction l using keepFirstByKey.induct with
  | case1 => simp [keepFirstByKey]
  | case2 p rest ih =>
    rw [keepFirstByKey]
    exact (ih.trans (List.filter_sublist rest)).cons₂ p

theorem keepFirstByKey_pairwise (l : List (RItem × ℚ)) :
    (keepFirstByKey l).Pairwise (fun a b => rkey a.1 ≠ rkey b.1) := by
  induction l using keepFirstByKey.induct with
  | case1 => simp [keepFirstByKey]
  | case2 p rest ih =>
    rw [keepFirstByKey]
    refine List.Pairwise.cons ?_ ih
    intro y hy
    have := (keepFirstByKey_sublist _).mem hy
    have := List.of_mem_filter this
    simp only [ne_eq, decide_not, Bool.not_eq_true', decide_eq_false_iff_not] at this
    exact fun h => this h.symm

theorem byScoreThenInput_eq_enumLE :
    byScoreThenInput = List.enumLE scoreLE := rfl

theorem scoreLE_trans (a b c : RItem × ℚ) :
    scoreLE a b → scoreLE b c → scoreLE a c := by
  simp only [scoreLE, decide_eq_true_eq]
  exact fun h1 h2 => le_trans h2 h1

theorem scoreLE_total (a b : RItem × ℚ) : scoreLE a b || scoreLE b a := by
  simp only [scoreLE, Bool.or_eq_true, decide_eq_true_eq]
  exact le_total b.2 a.2

theorem rkey_symm :
    Symmetric (fun a b : RItem × ℚ => rkey a.1 ≠ rkey b.1) :=
  fun _ _ h => h.symm

/-- C2: the ranker output keeps, for each composite key
`(url, first 80 chars of text)`, only the first occurrence in the
unified local-before-web order, and equals the first 10 items of the
deduplicated list sorted by score descending with ties broken by
original input position; in particular its keys are pairwise distinct
and it has at most 10 items. -/
theorem ranker_dedups_and_ranks (localPs : List RLocal) (webPs : List RWeb)
    (msgs : List Str) :
    rankerExecute localPs webPs msgs =
      (((((keepFirstByKey (scoredOf localPs webPs msgs)).enum.mergeSort
          byScoreThenInput).map (fun p => p.2)).take 10).map (fun p => p.1))
    ∧ (rankerExecute localPs webPs msgs).Pairwise
        (fun a b => rkey a ≠ rkey b)
    ∧ (rankerExecute localPs webPs msgs).length ≤ 10 := by
  have hded : dedupAux [] (scoredOf localPs webPs msgs) =
      keepFirstByKey (scoredOf localPs webPs msgs) := by
    rw [dedupAux_eq_keepFirst]
    congr 1
    exact List.filter_eq_self.mpr (fun a _ => by simp)
  have hexec : rankerExecute localPs webPs msgs =
      (((dedupAux [] (scoredOf localPs webPs msgs)).mergeSort
        scoreLE).take 10).map (fun p => p.1) := rfl
  refine ⟨?_, ?_, ?_⟩
  · rw [hexec, hded, byScoreThenInput_eq_enumLE, List.mergeSort_enum]
  · rw [hexec, hded]
    exact List.pairwise_map.mpr
      (List.Pairwise.sublist (List.take_sublist _ _)
        (((List.mergeSort_perm _ scoreLE).pairwise_iff
            (fun {_ _} h => Ne.symm h)).mpr
          (keepFirstByKey_pairwise _)))
  · rw [hexec]
    simp only [List.length_map, List.length_take]
    exact Nat.min_le_left _ _

theorem dedupAux_subset (seen : List (Option Str × Str))
    (l : List (RItem × ℚ)) (x : RItem × ℚ) :
    x ∈ dedupAux seen l → x ∈ l := by
  induction l generalizing seen with
  | nil => simp [dedupAux]
  | cons p rest ih =>
    intro hx
    rw [dedupAux] at hx
    split at hx
    · exact List.mem_cons_of_mem _ (ih _ hx)
    · rcases List.mem_cons.mp hx with h | h
      · exact h ▸ List.mem_cons_self _ _
      · exact List.mem_cons_of_mem _ (ih _ h)

theorem dedupAux_eq_self (l : List (RItem × ℚ)) :
    ∀ seen, (∀ x ∈ l, rkey x.1 ∉ seen) →
      l.Pairwise (fun a b => rkey a.1 ≠ rkey b.1) →
      dedupAux seen l = l := by
  induction l with
  | nil => intro seen _ _; rfl
  | cons p rest ih =>
    intro seen hseen hpw
    rw [dedupAux, if_neg (hseen p (List.mem_cons_self _ _))]
    congr 1
    refine ih _ ?_ hpw.of_cons
    intro x hx
    simp only [List.mem_cons, not_or]
    exact ⟨fun h => (List.rel_of_pairwise_cons hpw hx) h.symm,
      hseen x (List.mem_cons_of_mem _ hx)⟩

theorem map_score_recover (q : Str) (l : List (RItem × ℚ))
    (h : ∀ x ∈ l, x.2 = keyword_score x.1.text q) :
    (l.map (fun p => p.1)).map
      (fun it => (it, keyword_score it.text q)) = l := by
  rw [List.map_map]
  have hpt : ∀ p ∈ l,
      ((fun it => (it, keyword_score it.text q)) ∘ (fun p => p.1)) p
        = id p := by
    intro p hp
    simp only [Function.comp_apply, id_eq]
    rw [← h p hp]
  rw [List.map_congr_left hpt, List.map_id]

/-- C3: re-running the score/dedup/rank core on its own output (with
the same query) returns the output unchanged. -/
theorem rankCore_idempotent (q : Str) (items : List RItem) :
    rankCore q (rankCore q items) = rankCore q items := by
  set pref := ((dedupAux []
    (items.map (fun it => (it, keyword_score it.text q)))).mergeSort
      scoreLE).take 10 with hpref
  have hscore : ∀ x ∈ pref, x.2 = keyword_score x.1.text q := by
    intro x hx
    rw [hpref] at hx
    have h1 := List.mem_of_mem_take hx
    have h2 := List.mem_mergeSort.mp h1
    have h3 := dedupAux_subset _ _ _ h2
    obtain ⟨it, _, rfl⟩ := List.mem_map.mp h3
    rfl
  have hpw : pref.Pairwise (fun a b => rkey a.1 ≠ rkey b.1) := by
    rw [hpref]
    refine List.Pairwise.sublist (List.take_sublist _ _)
      (((List.mergeSort_perm _ scoreLE).pairwise_iff
        (fun {_ _} h => Ne.symm h)).mpr ?_)
    rw [dedupAux_eq_keepFirst]
    exact keepFirstByKey_pairwise _
  have hsorted : pref.Pairwise (fun a b => scoreLE a b) := by
    rw [hpref]
    exact List.Pairwise.sublist (List.take_sublist _ _)
      (List.sorted_mergeSort scoreLE_trans scoreLE_total _)
  have hlen : pref.length ≤ 10 := by
    rw [hpref]
    simp
  have e0 : rankCore q items = pref.map (fun p => p.1) := by
    rw [hpref]; rfl
  have e1 : (pref.map (fun p => p.1)).map
      (fun it => (it, keyword_score it.text q)) = pref :=
    map_score_recover q pref hscore
  have e2 : rankCore q (pref.map (fun p => p.1)) =
      pref.map (fun p => p.1) := by
    unfold rankCore mmr_diversify
    rw [e1, dedupAux_eq_self _ [] (by simp) hpw,
      List.mergeSort_of_sorted hsorted, List.take_of_length_le hlen]
  rw [e0, e2]

/-! ## SearchPlanner — `search_planner_node.py` -/

/-- Replacement of the Unicode quotes `’ ‘ “ ”`
by their ASCII equivalents (`str.replace` on single characters). -/
def replaceSmartQuotes (s : Str) : Str :=
  s.map (fun c =>
    if c = '’' then '\'' else if c = '‘' then '\''
    else if c = '“' then '\"' else if c = '”' then '\"' else c)

/-- Helper for the possessive regex: the character after the matched
`'s` must be a non-word character or the end of the string (`\b`). -/
def nonWordNext : Str → Bool
  | [] => true
  | d :: _ => !isWordChar d

/-- Does the optional previous character make a word boundary before
an apostrophe (i.e. is it a word character)? -/
def prevWord : Option Char → Bool
  | some p => isWordChar p
  | none => false

/-- Model of `re.sub(r"\b(['’])s\b", "", text)`: remove every non-overlapping
occurrence of an apostrophe followed by `s` that sits between a word
character and a non-word boundary.  `prev` is the character of the
original string just before the current position (`none` at the
start); matching resumes after the removed `'s`, whose last original
character `s` becomes the new `prev`. -/
def stripPossessive : Option Char → Str → Str
  | _, [] => []
  | _, [c] => [c]
  | prev, c :: d :: rest =>
    if (c = '\'' || c = '’') && prevWord prev && d = 's' &&
        nonWordNext rest then
      stripPossessive (some 's') rest
    else c :: stripPossessive (some c) (d :: rest)

/-- Model of `re.sub(r"\s+", " ", text)`: collapse whitespace runs to one
space; `inRun` records whether the previous character was part of a
whitespace run already emitted as one space. -/
def collapseWS (inRun : Bool) : Str → Str
  | [] => []
  | c :: rest =>
    if isSpaceChar c then
      if inRun then collapseWS true rest else ' ' :: collapseWS true rest
    else c :: collapseWS false rest

/-- The planner's `normalize`: smart quotes, possessive removal,
whitespace collapse, strip. -/
def plannerNormalize (s : Str) : Str :=
  pstrip (collapseWS false (stripPossessive none (replaceSmartQuotes s)))

/-- The planner's token class `[\w.-]+`. -/
def isPlanTokChar (c : Char) : Bool := isWordChar c || c = '.' || c = '-'

/-- Try to match `site:([\w.-]+)` at the head of `l`, returning the
captured greedy domain run. -/
def siteAt : Str → Option Str
  | 's' :: 'i' :: 't' :: 'e' :: ':' :: rest =>
    match rest with
    | d :: rest2 =>
      if isPlanTokChar d then some (d :: rest2.takeWhile isPlanTokChar)
      else none
    | [] => none
  | _ => none

/-- Model of `re.search(r"site:([\w.-]+)", s)`: leftmost match. -/
def findSite : Str → Option Str
  | [] => none
  | c :: rest =>
    match siteAt (c :: rest) with
    | some h => some h
    | none => findSite rest

/-- The planner's stopword set. -/
def plannerStop : List Str :=
  [strL "the", strL "a", strL "an", strL "about", strL "please",
   strL "can", strL "you", strL "tell", strL "me", strL "of",
   strL "on", strL "to", strL "for", strL "is", strL "are",
   strL "be", strL "and"]

/-- The brand/topic detection loop: first token containing `ionos`
fixes the topic, first token containing `wpmarmite` fixes the brand. -/
def brandTopicScan (tokens : List Str) : Option Str × Option Str :=
  tokens.foldl (fun bt t =>
    let topic := if bt.2 = none ∧ subStr (strL "ionos") t then
        some (strL "ionos") else bt.2
    let brand := if bt.1 = none ∧ subStr (strL "wpmarmite") t then
        some (strL "wpmarmite") else bt.1
    (brand, topic)) (none, none)

/-- Model of `" ".join(...)`. -/
def joinSep (sep : Str) : List Str → Str
  | [] => []
  | [x] => x
  | x :: xs => x ++ sep ++ joinSep sep xs

/-- Result of the planner: query variants plus the optional
`search_filters["include_domains"]` entry. -/
structure PlannerOut where
  queries : List Str
  include_domains : Option (List Str)
deriving DecidableEq, Repr

/-- The variant list construction: the normalized original sentence,
then the keyword-only join if new and non-empty, then the brand+topic
phrase if new. -/
def plannerVariants (q_orig keyword_query : Str)
    (brand_topic_query : Option Str) : List Str :=
  let qs1 : List Str := if q_orig.isEmpty then [] else [q_orig]
  let qs2 := if !keyword_query.isEmpty ∧ keyword_query ∉ qs1 then
      qs1 ++ [keyword_query] else qs1
  match brand_topic_query with
  | some b => if b ∉ qs2 then qs2 ++ [b] else qs2
  | none => qs2

/-- The planner's tail: append `site:<domain>` to every variant and
record the domain filter when a hint was found, then apply the
`["overview"]` fallback if no variant exists. -/
def plannerFinalize (site_hint : Option Str) (qs : List Str) : PlannerOut :=
  match site_hint with
  | some h =>
    let qs4 := qs.map (fun q => q ++ strL " site:" ++ h)
    ⟨if qs4.isEmpty then [strL "overview"] else qs4, some [h]⟩
  | none =>
    ⟨if qs.isEmpty then [strL "overview"] else qs, none⟩

/-- Model of `SearchPlannerNode.execute`. -/
def plannerExecute (msgs : List Str) : PlannerOut :=
  let user_msg := (lastStripped msgs).getD []
  let q_orig := plannerNormalize user_msg
  let lower_q := pyLower q_orig
  let site_hint := findSite lower_q
  let tokens := (findTokens isPlanTokChar lower_q).filter
    (fun t => t ∉ plannerStop)
  let bt := brandTopicScan tokens
  let keyword_query := pstrip (joinSep (strL " ") (tokens.take 8))
  let brand_topic_query : Option Str :=
    match bt.1, bt.2 with
    | some b, some tp => some (b ++ strL " " ++ tp ++ strL " article")
    | _, _ => none
  plannerFinalize site_hint
    (plannerVariants q_orig keyword_query brand_topic_query)

theorem plannerFinalize_queries_pos (site_hint : Option Str)
    (qs : List Str) : 0 < (plannerFinalize site_hint qs).queries.length := by
  cases site_hint with
  | none => cases qs <;> simp [plannerFinalize]
  | some h => cases qs <;> simp [plannerFinalize]

/-- C9: the planner always emits at least one query variant. -/
theorem planner_queries_nonempty (msgs : List Str) :
    0 < (plannerExecute msgs).queries.length := by
  unfold plannerExecute
  exact plannerFinalize_queries_pos _ _

theorem plannerVariants_ne_nil (q_orig keyword_query : Str)
    (btq : Option Str) (h : q_orig.isEmpty = false) :
    plannerVariants q_orig keyword_query btq ≠ [] := by
  unfold plannerVariants
  simp only [h, Bool.false_eq_true, if_false]
  cases btq <;> split_ifs <;> simp <;> split_ifs <;> simp

theorem plannerFinalize_site_props (d : Str) (qs : List Str)
    (hqs : qs ≠ []) :
    (plannerFinalize (some d) qs).include_domains = some [d]
    ∧ ∀ q ∈ (plannerFinalize (some d) qs).queries,
        (strL " site:" ++ d) <:+ q := by
  have hmap : (qs.map (fun q => q ++ strL " site:" ++ d)).isEmpty = false := by
    cases qs with
    | nil => exact absurd rfl hqs
    | cons a l => rfl
  refine ⟨rfl, ?_⟩
  intro q hq
  simp only [plannerFinalize, hmap, Bool.false_eq_true, if_false] at hq
  obtain ⟨x, _, rfl⟩ := List.mem_map.mp hq
  exact ⟨x, (List.append_assoc x (strL " site:") d).symm⟩

/-- C4 (amended): when the lowered normalized query contains a
`site:<domain>` hint, the planner extracts the domain as the
`include_domains` filter, emits at least one variant, and appends
` site:<domain>` to the end of every variant — but it does not remove
the hint from the query text itself. -/
theorem planner_site_hint_amended (msgs : List Str) (d : Str)
    (h : findSite (pyLower (plannerNormalize
      ((lastStripped msgs).getD []))) = some d) :
    (plannerExecute msgs).include_domains = some [d]
    ∧ 0 < (plannerExecute msgs).queries.length
    ∧ ∀ q ∈ (plannerExecute msgs).queries, (strL " site:" ++ d) <:+ q := by
  have horig : (plannerNormalize ((lastStripped msgs).getD [])).isEmpty
      = false := by
    rcases h0 : plannerNormalize ((lastStripped msgs).getD []) with _ | ⟨c, l⟩
    · rw [h0] at h
      simp [pyLower, findSite] at h
    · rfl
  unfold plannerExecute
  simp only [h]
  obtain ⟨h1, h2⟩ := plannerFinalize_site_props d _
    (plannerVariants_ne_nil _ _ _ horig)
  exact ⟨h1, plannerFinalize_queries_pos _ _, h2⟩

/-- The spec's own example input for the site-hint behaviour. -/
def acmeMsg : Str := strL "Acme's Q3 report site:acme.com"

/-- The first variant the code actually emits for `acmeMsg`. -/
def acmeFirstVariant : Str :=
  strL "Acme Q3 report site:acme.com site:acme.com"

/-- C4 (counterexample): on the spec's example query the first emitted
variant contains `site:acme.com` twice, because the hint is never
removed from the query text before ` site:acme.com` is appended; the
claim requires every variant to end with the hint exactly once (the
example variant should have been `Acme Q3 report site:acme.com`). -/
theorem planner_site_hint_counterexample :
    (plannerExecute [acmeMsg]).queries.head? = some acmeFirstVariant
    ∧ countOccSub (strL "site:acme.com") acmeFirstVariant = 2 := by
  constructor
  · decide
  · decide

/-- Witness for `planner_site_hint_amended` at the spec's example. -/
theorem planner_site_hint_amended_witness :
    (plannerExecute [acmeMsg]).include_domains = some [strL "acme.com"]
    ∧ 0 < (plannerExecute [acmeMsg]).queries.length
    ∧ ∀ q ∈ (plannerExecute [acmeMsg]).queries,
        (strL " site:" ++ strL "acme.com") <:+ q :=
  planner_site_hint_amended [acmeMsg] (strL "acme.com") (by decide)

/-! ## ContextMerger — `context_merge_node.py` and `utils/citations.py` -/

/-- A ranked passage as read by the merger (`p.get("text", "")`,
`p.get("url")`, `p.get("title")`). -/
structure MItem where
  text : Str
  url : Option Str
  title : Option Str
deriving DecidableEq, Repr

/-- Normalized citation (`normalize_citation`): the `url`/`title`
values are stored as given (`None` stays `None`), the date fields of a
merge-node citation dict are absent and so normalize to `None`. -/
structure Citation where
  url : Option Str
  title : Option Str
  published_or_updated_date : Option Str
  accessed_at : Option Str
deriving DecidableEq, Repr

/-- Model of `normalize_citation({"url": url, "title": title})`. -/
def normalize_citation (url title : Option Str) : Citation :=
  ⟨url, title, none, none⟩

/-- Python truthiness of an optional string (`None` and `""` falsy). -/
def optTruthy : Option Str → Bool
  | none => false
  | some s => !s.isEmpty

/-- Python `title or url`. -/
def orTruthy (a b : Option Str) : Option Str :=
  if optTruthy a then a else b

/-- Rendering of a value inside an f-string: `None` prints as
`None`. -/
def pyShowOpt : Option Str → Str
  | none => strL "None"
  | some s => s

/-- Decimal rendering of a natural number for the f-string label. -/
def natStr (n : Nat) : Str := (Nat.repr n).toList

/-- The merge loop over `enumerate(ranked[:8])`: for each passage with
non-empty stripped text, the labelled context block together with its
normalized citation. -/
def mergeRows (ranked : List MItem) : List (Str × Citation) :=
  (ranked.take 8).enum.filterMap (fun ip =>
    let text := pstrip ip.2.text
    if text.isEmpty then none
    else some
      (strL "Source " ++ natStr (ip.1 + 1) ++ strL " (" ++
         pyShowOpt (orTruthy ip.2.title ip.2.url) ++ strL "):\n" ++ text,
       normalize_citation ip.2.url ip.2.title))

/-- The `seen`-set loop of `dedupe_citations`. -/
def dedupe_citationsAux (seen : List Str) : List Citation → List Citation
  | [] => []
  | it :: rest =>
    match it.url with
    | none => dedupe_citationsAux seen rest
    | some u =>
      if u.isEmpty || decide (u ∈ seen) then dedupe_citationsAux seen rest
      else it :: dedupe_citationsAux (u :: seen) rest

/-- Model of `dedupe_citations`: deduplicate by URL keeping first occurrences;
entries with a falsy URL are dropped. -/
def dedupe_citations (items : List Citation) : List Citation :=
  dedupe_citationsAux [] items

/-- Model of `ContextMergeNode.execute`: the merged context string (falling
back to the incoming `context` when no block was produced) and the
deduplicated citations. -/
def contextMergeExecute (ranked : List MItem) (fallbackCtx : Str) :
    Str × List Citation :=
  let rows := mergeRows ranked
  (if rows.isEmpty then fallbackCtx
     else joinSep (strL "\n") (rows.map (fun r => r.1)),
   dedupe_citations (rows.map (fun r => r.2)))

theorem dropWhile_replicate_a (m : Nat) :
    (List.replicate m 'a').dropWhile isSpaceChar = List.replicate m 'a' := by
  cases m with
  | zero => rfl
  | succ k =>
    rw [List.replicate_succ, List.dropWhile_cons]
    simp [isSpaceChar]

theorem pstrip_replicate_a (n : Nat) :
    pstrip (List.replicate n 'a') = List.replicate n 'a' := by
  unfold pstrip
  rw [dropWhile_replicate_a, List.reverse_replicate, dropWhile_replicate_a,
    List.reverse_replicate]

theorem mergeRows_big : mergeRows [⟨List.replicate 6001 'a', none, none⟩] =
    [(strL "Source 1 (None):\n" ++ List.replicate 6001 'a',
      normalize_citation none none)] := by
  have hne : (List.replicate 6001 'a').isEmpty = false := by
    show (List.replicate (6000 + 1) 'a').isEmpty = false
    rw [List.replicate_succ]
    rfl
  unfold mergeRows
  rw [show ([(⟨List.replicate 6001 'a', none, none⟩ : MItem)]).take 8 =
    [⟨List.replicate 6001 'a', none, none⟩] from rfl]
  rw [show ([(⟨List.replicate 6001 'a', none, none⟩ : MItem)]).enum =
    [(0, ⟨List.replicate 6001 'a', none, none⟩)] from rfl]
  rw [List.filterMap_cons]
  simp only [pstrip_replicate_a, hne, Bool.false_eq_true, if_false,
    List.filterMap_nil]
  rfl

/-- C6 (counterexample): a single ranked passage of 6001 characters
yields a merged context of 6018 characters — above the 6000 context
budget configured in the repository (`MAX_CONTEXT_TOKENS`), and indeed
above any fixed `max_context_chars`: the merge node performs no
truncation at all. -/
theorem context_merge_budget_counterexample :
    6000 < ((contextMergeExecute [⟨List.replicate 6001 'a', none, none⟩]
      []).1).length := by
  simp only [contextMergeExecute, mergeRows_big, List.isEmpty_cons,
    Bool.false_eq_true, if_false]
  rw [List.map_cons, List.map_nil]
  rw [show joinSep (strL "\n") [strL "Source 1 (None):\n" ++
    List.replicate 6001 'a'] = strL "Source 1 (None):\n" ++
      List.replicate 6001 'a' from rfl]
  rw [List.length_append, List.length_replicate]
  have h17 : (strL "Source 1 (None):\n").length = 17 := rfl
  omega

/-- The total size of the produced blocks plus one separator each. -/
def rowsBudget (rows : List (Str × Citation)) : Nat :=
  rows.foldr (fun r acc => r.1.length + 1 + acc) 0

theorem joinSep_length_le (sep : Str) (l : List Str) :
    (joinSep sep l).length ≤
      l.foldr (fun b acc => b.length + sep.length + acc) 0 := by
  induction l using joinSep.induct sep with
  | case1 => simp [joinSep]
  | case2 x => simp [joinSep]
  | case3 x y hne ih =>
    cases y with
    | nil => exact absurd rfl hne
    | cons a l =>
      have heq : joinSep sep (x :: a :: l) =
          x ++ sep ++ joinSep sep (a :: l) := rfl
      rw [heq]
      simp only [List.foldr_cons, List.length_append]
      simp only [List.foldr_cons] at ih
      omega

/-- C6 (amended): the merged context is not truncated to any fixed
budget; its length is bounded only by the fallback context length or
the total size of the (at most 8) produced blocks joined by
newlines. -/
theorem context_merge_length_bound (ranked : List MItem) (fb : Str) :
    ((contextMergeExecute ranked fb).1).length ≤
      max fb.length (rowsBudget (mergeRows ranked)) := by
  unfold contextMergeExecute
  cases h : (mergeRows ranked).isEmpty
  · simp only [h, Bool.false_eq_true, if_false]
    refine le_max_of_le_right ?_
    calc (joinSep (strL "\n") ((mergeRows ranked).map (fun r => r.1))).length
        ≤ ((mergeRows ranked).map (fun r => r.1)).foldr
            (fun b acc => b.length + (strL "\n").length + acc) 0 :=
          joinSep_length_le _ _
      _ = rowsBudget (mergeRows ranked) := by
          rw [List.foldr_map]
          rfl
  · simp only [h, if_true]
    exact le_max_left _ _

theorem dedupeAux_sublist (l : List Citation) :
    ∀ seen, List.Sublist (dedupe_citationsAux seen l) l := by
  induction l with
  | nil => intro seen; simp [dedupe_citationsAux]
  | cons it rest ih =>
    intro seen
    rw [dedupe_citationsAux]
    split
    · exact (ih seen).cons it
    · split
      · exact (ih seen).cons it
      · exact (ih _).cons₂ it

theorem dedupeAux_truthy (l : List Citation) :
    ∀ seen c, c ∈ dedupe_citationsAux seen l →
      ∃ u, c.url = some u ∧ u.isEmpty = false ∧ u ∉ seen := by
  induction l with
  | nil => intro seen c hc; simp [dedupe_citationsAux] at hc
  | cons it rest ih =>
    intro seen c hc
    rw [dedupe_citationsAux] at hc
    split at hc
    · exact ih seen c hc
    · rename_i u hu
      split at hc
      · exact ih seen c hc
      · rename_i hcond
        simp only [Bool.or_eq_true, decide_eq_true_eq, not_or,
          Bool.not_eq_true] at hcond
        rcases List.mem_cons.mp hc with h | h
        · subst h
          exact ⟨u, hu, hcond.1, hcond.2⟩
        · obtain ⟨u2, h1, h2, h3⟩ := ih (u :: seen) c h
          exact ⟨u2, h1, h2, fun hmem => h3 (List.mem_cons_of_mem _ hmem)⟩

theorem dedupeAux_pairwise (l : List Citation) :
    ∀ seen, (dedupe_citationsAux seen l).Pairwise
      (fun a b => a.url ≠ b.url) := by
  induction l with
  | nil => intro seen; simp [dedupe_citationsAux]
  | cons it rest ih =>
    intro seen
    rw [dedupe_citationsAux]
    split
    · exact ih seen
    · split
      · exact ih seen
      · rename_i u hu _
        refine List.Pairwise.cons ?_ (ih (u :: seen))
        intro y hy
        obtain ⟨u2, h1, _, h3⟩ := dedupeAux_truthy rest (u :: seen) y hy
        rw [hu, h1]
        intro hEq
        exact h3 (Option.some.inj hEq ▸ List.mem_cons_self u seen)

theorem dedupeAux_coverage (l : List Citation) :
    ∀ seen, ∀ it ∈ l, ∀ u, it.url = some u → u.isEmpty = false →
      u ∉ seen →
      ∃ c ∈ dedupe_citationsAux seen l, c.url = some u := by
  induction l with
  | nil => intro seen it hit; simp at hit
  | cons hd rest ih =>
    intro seen it hit u hu hne hns
    rw [dedupe_citationsAux]
    split
    · rename_i hnone
      rcases List.mem_cons.mp hit with h | h
      · rw [h, hnone] at hu
        exact absurd hu (by simp)
      · exact ih seen it h u hu hne hns
    · rename_i u0 hu0
      split
      · rename_i hcond
        rcases List.mem_cons.mp hit with h | h
        · exfalso
          rw [h, hu0] at hu
          have : u0 = u := Option.some.inj hu
          subst this
          simp only [Bool.or_eq_true, decide_eq_true_eq] at hcond
          rcases hcond with h1 | h1
          · rw [hne] at h1; exact Bool.false_ne_true h1
          · exact hns h1
        · exact ih seen it h u hu hne hns
      · by_cases hequ : u0 = u
        · subst hequ
          exact ⟨hd, List.mem_cons_self _ _, hu0⟩
        · rcases List.mem_cons.mp hit with h | h
          · exfalso
            rw [h, hu0] at hu
            exact hequ (Option.some.inj hu)
          · obtain ⟨c, hc1, hc2⟩ := ih (u0 :: seen) it h u hu hne
              (by
                simp only [List.mem_cons, not_or]
                exact ⟨fun hx => hequ hx.symm, hns⟩)
            exact ⟨c, List.mem_cons_of_mem _ hc1, hc2⟩

theorem joinSep_infix_of_mem (sep : Str) (l : List Str) (x : Str)
    (hx : x ∈ l) : x <:+: joinSep sep l := by
  induction l with
  | nil => cases hx
  | cons h t ih =>
    cases t with
    | nil =>
      rcases List.mem_cons.mp hx with h1 | h1
      · subst h1; exact List.infix_refl _
      · cases h1
    | cons a l2 =>
      have heq : joinSep sep (h :: a :: l2) =
          h ++ sep ++ joinSep sep (a :: l2) := rfl
      rcases List.mem_cons.mp hx with h1 | h1
      · subst h1
        rw [heq, List.append_assoc]
        exact (List.prefix_append x (sep ++ joinSep sep (a :: l2))).isInfix
      · rw [heq]
        refine (ih h1).trans ?_
        exact (List.suffix_append (h ++ sep)
          (joinSep sep (a :: l2))).isInfix

theorem exists_enum_of_mem {α : Type} (l : List α) (a : α) (ha : a ∈ l) :
    ∃ i, (i, a) ∈ l.enum := by
  have h := List.enumFrom_map_snd 0 l
  rw [show l.enum = List.enumFrom 0 l from rfl]
  rw [← h] at ha
  obtain ⟨⟨i, b⟩, hmem, hb⟩ := List.mem_map.mp ha
  exact ⟨i, by rwa [show b = a from hb] at hmem⟩

/-- C8: in the merger's citation output no two citations share a URL
(all output URLs are non-empty, see C10); the output preserves the
first-seen order of the produced citation items (it is a sublist), and
every produced citation with a truthy URL is represented. -/
theorem merger_citations_unique_by_url (ranked : List MItem) (fb : Str) :
    ((contextMergeExecute ranked fb).2).Pairwise (fun a b => a.url ≠ b.url)
    ∧ List.Sublist ((contextMergeExecute ranked fb).2)
        ((mergeRows ranked).map (fun r => r.2))
    ∧ (∀ c ∈ (mergeRows ranked).map (fun r => r.2), ∀ u, c.url = some u →
        u.isEmpty = false →
        ∃ c2 ∈ (contextMergeExecute ranked fb).2, c2.url = some u) := by
  refine ⟨?_, ?_, ?_⟩
  · exact dedupeAux_pairwise _ []
  · exact dedupeAux_sublist _ []
  · intro c hc u hu hne
    exact dedupeAux_coverage _ [] c hc u hu hne (by simp)

/-- A two-item input whose citations share the URL `u`. -/
def wRanked : List MItem :=
  [⟨strL "hello", some (strL "u"), none⟩,
   ⟨strL "world", some (strL "u"), none⟩]

/-- Witness for `merger_citations_unique_by_url` at a concrete list
with a duplicated URL. -/
theorem merger_citations_unique_by_url_witness :
    ∃ c2 ∈ (contextMergeExecute wRanked []).2, c2.url = some (strL "u") :=
  (merger_citations_unique_by_url wRanked []).2.2
    (normalize_citation (some (strL "u")) none) (by decide)
    (strL "u") rfl (by decide)

/-- C10: every citation surviving `dedupe_citations` has a non-empty
URL (URL-less citations are dropped entirely); yet a passage with
non-empty text still contributes its text to the merged context
whether or not it has a URL. -/
theorem dedupe_drops_urlless_but_text_kept :
    (∀ (items : List Citation), ∀ c ∈ dedupe_citations items,
      ∃ u, c.url = some u ∧ u.isEmpty = false)
    ∧ ∀ (ranked : List MItem) (fb : Str), ∀ p ∈ ranked.take 8,
        (pstrip p.text).isEmpty = false →
        pstrip p.text <:+: (contextMergeExecute ranked fb).1 := by
  constructor
  · intro items c hc
    obtain ⟨u, h1, h2, _⟩ := dedupeAux_truthy items [] c hc
    exact ⟨u, h1, h2⟩
  · intro ranked fb p hp hne
    obtain ⟨i, hi⟩ := exists_enum_of_mem _ p hp
    have hrow : (strL "Source " ++ natStr (i + 1) ++ strL " (" ++
        pyShowOpt (orTruthy p.title p.url) ++ strL "):\n" ++ pstrip p.text,
        normalize_citation p.url p.title) ∈ mergeRows ranked := by
      unfold mergeRows
      refine List.mem_filterMap.mpr ⟨(i, p), hi, ?_⟩
      simp only [hne, Bool.false_eq_true, if_false]
    have hblock : (strL "Source " ++ natStr (i + 1) ++ strL " (" ++
        pyShowOpt (orTruthy p.title p.url) ++ strL "):\n" ++ pstrip p.text)
          ∈ (mergeRows ranked).map (fun r => r.1) :=
      List.mem_map_of_mem _ hrow
    have hrows_ne : (mergeRows ranked).isEmpty = false := by
      cases hmr : mergeRows ranked with
      | nil => rw [hmr] at hrow; cases hrow
      | cons a l => rfl
    have hctx : (contextMergeExecute ranked fb).1 =
        joinSep (strL "\n") ((mergeRows ranked).map (fun r => r.1)) := by
      unfold contextMergeExecute
      simp only [hrows_ne, Bool.false_eq_true, if_false]
    rw [hctx]
    have hsuffix : pstrip p.text <:+ (strL "Source " ++ natStr (i + 1) ++
        strL " (" ++ pyShowOpt (orTruthy p.title p.url) ++ strL "):\n" ++
          pstrip p.text) :=
      ⟨strL "Source " ++ natStr (i + 1) ++ strL " (" ++
        pyShowOpt (orTruthy p.title p.url) ++ strL "):\n", rfl⟩
    exact hsuffix.isInfix.trans (joinSep_infix_of_mem _ _ _ hblock)

/-- Witness for `dedupe_drops_urlless_but_text_kept` at concrete
inputs: a kept citation has the non-empty URL `u`, and a URL-less
passage's text appears in the merged context. -/
theorem dedupe_drops_urlless_witness :
    (∃ u, (⟨some (strL "u"), none, none, none⟩ : Citation).url = some u
      ∧ u.isEmpty = false)
    ∧ pstrip (strL "hello") <:+:
        (contextMergeExecute [⟨strL "hello", none, none⟩] []).1 := by
  constructor
  · exact dedupe_drops_urlless_but_text_kept.1
      [⟨some (strL "u"), none, none, none⟩]
      ⟨some (strL "u"), none, none, none⟩ (by decide)
  · exact dedupe_drops_urlless_but_text_kept.2
      [⟨strL "hello", none, none⟩] [] ⟨strL "hello", none, none⟩
      (by decide) (by decide)

/-! ## ContentFetcher — `agents/Collectors/web_reader.py`

The network fetch, content-type check and BeautifulSoup paragraph
extraction are impure; they are modelled by an explicit oracle
`fetch : Str → Option (Str × Str)` mapping a URL to `some (title,
extracted text)` when the GET succeeded with an HTML content type, and
`none` when the URL is skipped (request error, non-HTML, parse
failure).  The windowing loop and the budget logic below it are
translated from the source. -/

/-- An extracted passage record
`{"url": ..., "title": ..., "passage": ..., "date": None}`. -/
structure FPassage where
  url : Str
  title : Str
  passage : Str
deriving DecidableEq, Repr

/-- The sliding-window loop (`window_size = 800`, `overlap = 200`):
starting at `start`, take `min(start+800, len)`-sized windows, keep
those of length at least 200, stop at the end of the text or when the
global result list reaches `max_pages` entries.  The loop advances
`start` by 600 each iteration, so `text.length + 1` units of fuel
always suffice; the fuel is a structural-recursion device only. -/
def chunkEmit (url title passage : Str) (acc : List FPassage) :
    List FPassage :=
  if 200 ≤ passage.length then acc ++ [⟨url, title, passage⟩] else acc

/-- The window starting at `start`: `text[start : min (start+800, len)]`. -/
def windowAt (text : Str) (start : Nat) : Str :=
  (text.drop start).take (min (start + 800) text.length - start)

def chunkGo (url title : Str) (text : Str) (maxPages : Nat) :
    Nat → Nat → List FPassage → List FPassage
  | 0, _, acc => acc
  | fuel + 1, start, acc =>
    if start < text.length ∧ acc.length < maxPages then
      if min (start + 800) text.length = text.length then
        chunkEmit url title (windowAt text start) acc
      else chunkGo url title text maxPages fuel
        (min (start + 800) text.length - 200)
        (chunkEmit url title (windowAt text start) acc)
    else acc

/-- The body of the per-URL loop: failed/non-HTML URLs and URLs with
empty extracted text are skipped, otherwise the text is windowed. -/
def fetchStep (fetch : Str → Option (Str × Str)) (maxPages : Nat)
    (acc : List FPassage) (url : Str) : List FPassage :=
  match fetch url with
  | none => acc
  | some tt =>
    if tt.2.isEmpty then acc
    else chunkGo url tt.1 tt.2 maxPages (tt.2.length + 1) 0 acc

/-- Model of `WebReader.fetch_and_extract`: loop over the first `max_pages`
URLs (`max_pages` comes from `budget["max_pages"]`, default 6),
chunking each successfully extracted text while the global passage
budget allows. -/
def fetch_and_extract (fetch : Str → Option (Str × Str))
    (urls : List Str) (budget : Option Nat) : List FPassage :=
  let maxPages := budget.getD 6
  (urls.take maxPages).foldl (fetchStep fetch maxPages) []

theorem chunkGo_length (url title text : Str) (mp : Nat) :
    ∀ fuel start (acc : List FPassage), acc.length ≤ mp →
      (chunkGo url title text mp fuel start acc).length ≤ mp := by
  intro fuel
  induction fuel with
  | zero => intro start acc h; exact h
  | succ n ih =>
    intro start acc h
    rw [chunkGo]
    split
    · rename_i hcond
      have hacc2 : (chunkEmit url title (windowAt text start) acc).length
          ≤ mp := by
        unfold chunkEmit
        split
        · simpa using hcond.2
        · exact h
      split
      · exact hacc2
      · exact ih _ _ hacc2
    · exact h

theorem windowAt_isInfix (text : Str) (start : Nat) :
    windowAt text start <:+: text := by
  refine ⟨text.take start, (text.drop start).drop
    (min (start + 800) text.length - start), ?_⟩
  rw [windowAt, List.append_assoc, List.take_append_drop,
    List.take_append_drop]

theorem windowAt_length_le (text : Str) (start : Nat) :
    (windowAt text start).length ≤ 800 := by
  unfold windowAt
  rw [List.length_take]
  have h1 : min (start + 800) text.length - start ≤ 800 := by
    have := Nat.min_le_left (start + 800) text.length
    omega
  exact le_trans (Nat.min_le_left _ _) h1

theorem chunkEmit_mem (url title passage : Str) (acc : List FPassage)
    (r : FPassage) (hr : r ∈ chunkEmit url title passage acc) :
    r ∈ acc ∨ (r.url = url ∧ r.title = title ∧ 200 ≤ r.passage.length
      ∧ r.passage = passage) := by
  unfold chunkEmit at hr
  split at hr
  · rcases List.mem_append.mp hr with h | h
    · exact Or.inl h
    · rename_i hlen
      rcases List.mem_singleton.mp h with rfl
      exact Or.inr ⟨rfl, rfl, hlen, rfl⟩
  · exact Or.inl hr

theorem chunkGo_mem (url title text : Str) (mp : Nat) :
    ∀ fuel start (acc : List FPassage) r,
      r ∈ chunkGo url title text mp fuel start acc →
      r ∈ acc ∨ (r.url = url ∧ r.title = title
        ∧ 200 ≤ r.passage.length ∧ r.passage.length ≤ 800
        ∧ r.passage <:+: text) := by
  intro fuel
  induction fuel with
  | zero => intro start acc r hr; exact Or.inl hr
  | succ n ih =>
    intro start acc r hr
    rw [chunkGo] at hr
    split at hr
    · have hemit : ∀ s, r ∈ chunkEmit url title (windowAt text s) acc →
          r ∈ acc ∨ (r.url = url ∧ r.title = title
            ∧ 200 ≤ r.passage.length ∧ r.passage.length ≤ 800
            ∧ r.passage <:+: text) := by
        intro s hmem
        rcases chunkEmit_mem _ _ _ _ _ hmem with h | ⟨h1, h2, h3, h4⟩
        · exact Or.inl h
        · refine Or.inr ⟨h1, h2, h3, ?_, ?_⟩
          · rw [h4]; exact windowAt_length_le _ _
          · rw [h4]; exact windowAt_isInfix _ _
      split at hr
      · exact hemit start hr
      · rcases ih _ _ r hr with h | h
        · exact hemit start h
        · exact Or.inr h
    · exact Or.inl hr

theorem fetchStep_length (fetch : Str → Option (Str × Str)) (mp : Nat)
    (acc : List FPassage) (url : Str) (h : acc.length ≤ mp) :
    (fetchStep fetch mp acc url).length ≤ mp := by
  unfold fetchStep
  split
  · exact h
  · split
    · exact h
    · exact chunkGo_length _ _ _ _ _ _ _ h

theorem fetchStep_mem (fetch : Str → Option (Str × Str)) (mp : Nat)
    (acc : List FPassage) (url : Str) (r : FPassage)
    (hr : r ∈ fetchStep fetch mp acc url) :
    r ∈ acc ∨ (∃ title text, fetch r.url = some (title, text)
      ∧ 200 ≤ r.passage.length ∧ r.passage.length ≤ 800
      ∧ r.passage <:+: text) := by
  unfold fetchStep at hr
  split at hr
  · exact Or.inl hr
  · rename_i tt hfetch
    split at hr
    · exact Or.inl hr
    · rcases chunkGo_mem _ _ _ _ _ _ _ _ hr with h | ⟨h1, _, h3, h4, h5⟩
      · exact Or.inl h
      · exact Or.inr ⟨tt.1, tt.2, by rw [h1, hfetch], h3, h4, h5⟩

theorem fetchFold_length (fetch : Str → Option (Str × Str)) (mp : Nat) :
    ∀ (urls : List Str) (acc : List FPassage), acc.length ≤ mp →
      (urls.foldl (fetchStep fetch mp) acc).length ≤ mp := by
  intro urls
  induction urls with
  | nil => intro acc h; exact h
  | cons u rest ih =>
    intro acc h
    exact ih _ (fetchStep_length fetch mp acc u h)

theorem fetchFold_mem (fetch : Str → Option (Str × Str)) (mp : Nat) :
    ∀ (urls : List Str) (acc : List FPassage) r,
      r ∈ urls.foldl (fetchStep fetch mp) acc →
      r ∈ acc ∨ (∃ title text, fetch r.url = some (title, text)
        ∧ 200 ≤ r.passage.length ∧ r.passage.length ≤ 800
        ∧ r.passage <:+: text) := by
  intro urls
  induction urls with
  | nil => intro acc r hr; exact Or.inl hr
  | cons u rest ih =>
    intro acc r hr
    rcases ih _ r hr with h | h
    · exact fetchStep_mem fetch mp acc u r h
    · exact Or.inr h

/-- C7: the fetcher returns at most `max_pages` passages overall, and
every returned passage is a window of its page's extracted text of
length between 200 and 800 characters. -/
theorem fetcher_budget_and_windows (fetch : Str → Option (Str × Str))
    (urls : List Str) (budget : Option Nat) :
    (fetch_and_extract fetch urls budget).length ≤ budget.getD 6
    ∧ ∀ r ∈ fetch_and_extract fetch urls budget,
        ∃ title text, fetch r.url = some (title, text)
          ∧ 200 ≤ r.passage.length ∧ r.passage.length ≤ 800
          ∧ r.passage <:+: text := by
  constructor
  · exact fetchFold_length fetch _ _ [] (Nat.zero_le _)
  · intro r hr
    rcases fetchFold_mem fetch _ _ [] r hr with h | h
    · cases h
    · exact h

/-- A one-page oracle for the fetcher witness. -/
def wfetch : Str → Option (Str × Str) := fun u =>
  if u = strL "u1" then some (strL "T", List.replicate 300 'x') else none

set_option maxRecDepth 4000 in
/-- Witness for `fetcher_budget_and_windows` on a concrete page. -/
theorem fetcher_budget_and_windows_witness :
    ∃ title text, wfetch (strL "u1") = some (title, text)
      ∧ 200 ≤ (List.replicate 300 'x' : Str).length
      ∧ (List.replicate 300 'x' : Str).length ≤ 800
      ∧ (List.replicate 300 'x' : Str) <:+: text :=
  (fetcher_budget_and_windows wfetch [strL "u1"] none).2
    ⟨strL "u1", strL "T", List.replicate 300 'x'⟩ (by decide)

/-! ## Orchestrator — `react_agent.py`, `_build_extended_workflow`

The LangGraph `StateGraph` wiring is embedded as concrete edge data:
the node set (in `add_node` order), the entry point, the unconditional
edges (in `add_edge` order, including the duplicated
`response_generation → END` edge of the source), the single
conditional-edge registration, and its routing function. -/

/-- LangGraph's `END` sentinel. -/
def endNode : Str := strL "__end__"

def extendedNodes : List Str :=
  [strL "reasoning", strL "context_preparation", strL "response_draft",
   strL "response_sufficiency", strL "web_retrieve_simple",
   strL "response_generation"]

def extendedEntry : Str := strL "reasoning"

def extendedEdges : List (Str × Str) :=
  [(strL "reasoning", strL "context_preparation"),
   (strL "context_preparation", strL "response_draft"),
   (strL "response_draft", strL "response_sufficiency"),
   (strL "web_retrieve_simple", strL "response_generation"),
   (strL "response_generation", endNode),
   (strL "response_generation", endNode)]

/-- The mapping dict passed to `add_conditional_edges`. -/
def extendedCondMapping : List (Str × Str) :=
  [(strL "sufficient", strL "response_generation"),
   (strL "insufficient", strL "web_retrieve_simple")]

/-- The conditional-edge registrations: exactly one, at the gate. -/
def extendedCondEdges : List (Str × List (Str × Str)) :=
  [(strL "response_sufficiency", extendedCondMapping)]

/-- Model of `route_after_sufficiency`: the decision when it is one of the two
known strings, else `"insufficient"`. -/
def route_after_sufficiency (decision : Option Str) : Str :=
  match decision with
  | some d =>
    if d = strL "sufficient" ∨ d = strL "insufficient" then d
    else strL "insufficient"
  | none => strL "insufficient"

/-- C5 (counterexample): the conditional mapping routes
`"insufficient"` straight to `web_retrieve_simple`, whose only
outgoing edge goes to `response_generation`, and the graph has only 6
nodes — there are no Plan/Search/Fetch/Rank/Merge stages on the
insufficient branch. -/
theorem workflow_insufficient_branch_counterexample :
    extendedCondMapping.lookup (strL "insufficient") =
      some (strL "web_retrieve_simple")
    ∧ (extendedEdges.filter
        (fun e => e.1 = strL "web_retrieve_simple")).map (fun e => e.2) =
      [strL "response_generation"]
    ∧ extendedNodes.length = 6 := by
  refine ⟨?_, ?_, ?_⟩ <;> decide

/-- C5 (amended): the gate is the only conditional edge; its router
always returns one of the two mapped keys; `"sufficient"` goes
directly to `response_generation` and `"insufficient"` goes through
the single `web_retrieve_simple` stage, whose only outgoing edge
converges at `response_generation`; the gate has no unconditional
outgoing edge. -/
theorem workflow_gate_only_conditional_edge :
    (∀ d : Option Str, route_after_sufficiency d = strL "sufficient"
      ∨ route_after_sufficiency d = strL "insufficient")
    ∧ extendedCondEdges.map (fun e => e.1) = [strL "response_sufficiency"]
    ∧ extendedCondMapping.lookup (strL "sufficient") =
        some (strL "response_generation")
    ∧ extendedCondMapping.lookup (strL "insufficient") =
        some (strL "web_retrieve_simple")
    ∧ (extendedEdges.filter
        (fun e => e.1 = strL "web_retrieve_simple")).map (fun e => e.2) =
      [strL "response_generation"]
    ∧ extendedEdges.filter (fun e => e.1 = strL "response_sufficiency")
        = [] := by
  refine ⟨?_, by decide, by decide, by decide, by decide, by decide⟩
  intro d
  cases d with
  | none => exact Or.inr rfl
  | some s =>
    by_cases h1 : s = strL "sufficient"
    · exact Or.inl (by simp [route_after_sufficiency, h1])
    · by_cases h2 : s = strL "insufficient"
      · exact Or.inr (by simp [route_after_sufficiency, h1, h2])
      · exact Or.inr (by simp [route_after_sufficiency, h1, h2])
